import Mathlib

/-!
# Verification of the metamover metadata-stripping tool

Shallow embedding of the Go sources (`cmd/strip-metadata/main.go` and the
second program variant) and proofs of the specification's claims about
file discovery, metadata classification, the strip-and-replace operation
and the ffmpeg dependency check.

External effects (the ffmpeg/ffprobe/brew processes, the filesystem) are
modelled explicitly: process outcomes and the `os.Rename` outcome become
oracle parameters, and the filesystem becomes a partial map from paths to
contents on which the stat/remove primitives act and always succeed
(removal failures, which the source only logs and never returns, are
outside the model).
-/

namespace Metamover

/-! ## String utilities mirrored from Go's `path/filepath` and `strings` -/

/-- Scan a path's characters from the end (the input list is the reversed
path): stop with the extension at the first `.`, with nothing at the first
path separator or at the start.  Mirrors the loop of Go's `filepath.Ext`. -/
def extRevAux : List Char → List Char → Option (List Char)
  | [], _ => none
  | c :: rest, acc =>
    if c = '/' then none
    else if c = '.' then some ('.' :: acc)
    else extRevAux rest (c :: acc)

/-- Go's `filepath.Ext`: the suffix beginning at the final dot in the final
path element, or `""` when there is none. -/
def goExt (path : String) : String :=
  match extRevAux path.data.reverse [] with
  | some e => String.mk e
  | none => ""

/-- Go's `strings.TrimSuffix`: drop `suf` from the end of `s` when it is a
suffix, otherwise return `s` unchanged. -/
def goTrimSuffix (s suf : String) : String :=
  if suf.data.isSuffixOf s.data then
    String.mk (s.data.take (s.data.length - suf.data.length))
  else s

/-- Go's `strings.HasPrefix`. -/
def goHasPre (s pre : String) : Bool :=
  pre.data.isPrefixOf s.data

/-- ASCII lowercase of one character; the mapping Go's `strings.ToLower`
applies on the ASCII range, which covers the extension allow-list. -/
def toLowerCh (c : Char) : Char :=
  if 'A' ≤ c ∧ c ≤ 'Z' then Char.ofNat (c.toNat + 32) else c

/-- Go's `strings.ToLower`, restricted to the ASCII case mapping. -/
def toLowerStr (s : String) : String :=
  String.mk (s.data.map toLowerCh)

/-- Go's `strings.Split` for the single-character separator `","` used on
the extension constant. -/
def splitCommaAux : List Char → List Char → List String
  | [], acc => [String.mk acc.reverse]
  | c :: rest, acc =>
    if c = ',' then String.mk acc.reverse :: splitCommaAux rest []
    else splitCommaAux rest (c :: acc)

def splitComma (s : String) : List String :=
  splitCommaAux s.data []

/-! ## Constants and file discovery (`findVideoFiles`) -/

/-- The `videoExtensions` constant of both program variants. -/
def videoExtensions : String := ".mp4,.mkv,.avi,.mov,.wmv,.flv,.webm,.m4v"

/-- The extension set built at the top of `findVideoFiles`: the comma-split
pieces of `videoExtensions`, lowercased. -/
def extList : List String :=
  (splitComma videoExtensions).map toLowerStr

/-- The selection test applied to every non-directory path inside
`findVideoFiles`' walk callback: lowercased `filepath.Ext` is in the set. -/
def selectsVideo (path : String) : Bool :=
  extList.contains (toLowerStr (goExt path))

/-- A directory tree snapshot: what `filepath.Walk` traverses. -/
inductive Entry : Type
  | file (name : String)
  | dir (name : String) (entries : List Entry)

/-- The visit sequence `filepath.Walk` produces below a base directory:
each entry yields its path paired with its is-directory flag; a directory's
contents are visited right after the directory itself. -/
def walkList (base : String) : List Entry → List (String × Bool)
  | [] => []
  | Entry.file n :: rest =>
    (base ++ "/" ++ n, false) :: walkList base rest
  | Entry.dir n es :: rest =>
    (base ++ "/" ++ n, true) ::
      (walkList (base ++ "/" ++ n) es ++ walkList base rest)

/-- `filepath.Walk dir` visits `dir` itself first, then the tree below. -/
def walkVisit (dir : String) (tree : List Entry) : List (String × Bool) :=
  (dir, true) :: walkList dir tree

/-- `findVideoFiles`: fold the walk callback over the visit sequence,
skipping directories and appending every path whose lowercased extension is
in the allow-list. -/
def findVideoFiles (dir : String) (tree : List Entry) : List String :=
  (walkVisit dir tree).foldl
    (fun acc v =>
      if v.2 then acc
      else if selectsVideo v.1 then acc ++ [v.1] else acc) []

/-! ## Metadata snapshots and the two classifiers

`metadataInfo` holds the container tag map and the per-stream tag maps.
A Go `map[string]string` is embedded as an association list of distinct
keys in iteration order; Go randomizes map iteration, so the list order
records one possible iteration order.  A `nil` map behaves exactly like an
empty one in the source (lookups miss, `range` visits nothing), so `[]`
covers it. -/

structure MetadataInfo where
  formatTags : List (String × String)
  streams : List (List (String × String))

/-- Go map access `v, ok := tags[k]`: `some` for present keys. -/
def lookupTag : List (String × String) → String → Option String
  | [], _ => none
  | kv :: rest, k => if kv.1 = k then some kv.2 else lookupTag rest k

/-- One `if v, ok := tags[k]; ok && v != ""` container-tag check of
`displayMetadata`, yielding the finding `k: v`. -/
def checkTag (tags : List (String × String)) (k : String) : List String :=
  match lookupTag tags k with
  | some v => if v ≠ "" then [k ++ ": " ++ v] else []
  | none => []

/-- The finding text `stream[i].k: v`. -/
def streamFinding (i : Nat) (k v : String) : String :=
  "stream[" ++ toString i ++ "]." ++ k ++ ": " ++ v

/-- One unfiltered stream-tag check (used for `creation_time` and
`timecode` in both classifiers and for `encoder` in `displayMetadata`). -/
def checkStreamTag (i : Nat) (tags : List (String × String)) (k : String) :
    List String :=
  match lookupTag tags k with
  | some v => if v ≠ "" then [streamFinding i k v] else []
  | none => []

/-- The stream `encoder` check of `verifyMetadataRemoved`: reported only
when non-empty and not carrying the `Lav` prefix ffmpeg injects. -/
def checkStreamEncoder (i : Nat) (tags : List (String × String)) :
    List String :=
  match lookupTag tags "encoder" with
  | some v =>
    if v ≠ "" ∧ goHasPre v "Lav" = false then [streamFinding i "encoder" v]
    else []
  | none => []

/-- The eight container keys `displayMetadata` checks, in source order. -/
def displayKeys : List String :=
  ["creation_time", "encoder", "comment", "title", "artist", "album",
   "date", "description"]

/-- The stream loop of `displayMetadata` starting at stream index `i`. -/
def displayStreamLoop : List (List (String × String)) → Nat → List String
  | [], _ => []
  | tags :: rest, i =>
    (checkStreamTag i tags "creation_time" ++
     checkStreamTag i tags "encoder" ++
     checkStreamTag i tags "timecode") ++ displayStreamLoop rest (i + 1)

/-- The `foundMetadata` list `displayMetadata` accumulates: the eight
known container tags in fixed order, then the stream tags in stream
order. -/
def displayFindings (m : MetadataInfo) : List String :=
  checkTag m.formatTags "creation_time" ++
  (checkTag m.formatTags "encoder" ++
  (checkTag m.formatTags "comment" ++
  (checkTag m.formatTags "title" ++
  (checkTag m.formatTags "artist" ++
  (checkTag m.formatTags "album" ++
  (checkTag m.formatTags "date" ++
  (checkTag m.formatTags "description" ++
  displayStreamLoop m.streams 0)))))))

/-- The `ignoredTags` set of `verifyMetadataRemoved`. -/
def ignoredTags : List String :=
  ["major_brand", "minor_version", "compatible_brands"]

/-- The container loop of `verifyMetadataRemoved`: every non-ignored,
non-empty tag in map iteration order, skipping an `encoder` value with the
`Lavf` prefix. -/
def verifyFormatLoop : List (String × String) → List String
  | [] => []
  | (k, v) :: rest =>
    (if ignoredTags.contains k = false ∧ v ≠ "" then
      if k = "encoder" ∧ goHasPre v "Lavf" = true then []
      else [k ++ ": " ++ v]
     else []) ++ verifyFormatLoop rest

/-- The stream loop of `verifyMetadataRemoved` starting at index `i`. -/
def verifyStreamLoop : List (List (String × String)) → Nat → List String
  | [], _ => []
  | tags :: rest, i =>
    (checkStreamTag i tags "creation_time" ++
     checkStreamEncoder i tags ++
     checkStreamTag i tags "timecode") ++ verifyStreamLoop rest (i + 1)

/-- The `remainingMetadata` list `verifyMetadataRemoved` accumulates. -/
def verifyFindings (m : MetadataInfo) : List String :=
  verifyFormatLoop m.formatTags ++ verifyStreamLoop m.streams 0

/-! ## Filesystem model and `stripMetadata` -/

/-- A filesystem: paths to file contents. -/
def FS : Type := String → Option String

def fsSet (fs : FS) (p c : String) : FS :=
  fun q => if q = p then some c else fs q

def fsRemove (fs : FS) (p : String) : FS :=
  fun q => if q = p then none else fs q

/-- The deferred cleanup of `stripMetadata`: if a file exists at the
temporary path (`os.Stat` succeeds), remove it. -/
def cleanupTmp (fs : FS) (tmp : String) : FS :=
  if (fs tmp).isSome then fsRemove fs tmp else fs

/-- The temporary path derivation at the top of `stripMetadata`:
`ext := filepath.Ext(inputFile)`, `baseName := strings.TrimSuffix(inputFile, ext)`,
`tmpFile := baseName + ".tmp" + ext`. -/
def tmpPath (inputFile : String) : String :=
  goTrimSuffix inputFile (goExt inputFile) ++ ".tmp" ++ goExt inputFile

/-- Result of one `stripMetadata` call: the returned error, if any, and the
filesystem after the call (deferred cleanup included). -/
structure StripResult where
  error : Option String
  fs : FS

/-- `stripMetadata`, with the external invocations as oracles: `exitOk` is
whether ffmpeg's `cmd.Run()` succeeded, `written` is the content ffmpeg
left at the temporary path (`none` when it wrote nothing), and `renameOk`
is whether `os.Rename` succeeds.  ffmpeg writes only to its output path,
which is distinct from the input.  Steps mirror the source: derive the
temp path, run ffmpeg, on error return the wrapped error; then the
defensive `os.Stat` existence check; then `os.Rename` over the original —
atomic, so on failure it returns the wrapped rename error leaving both
files in place; the deferred cleanup applies on every exit path. -/
def stripMetadata (fs : FS) (inputFile : String) (exitOk : Bool)
    (written : Option String) (renameOk : Bool) : StripResult :=
  let tmpFile := tmpPath inputFile
  let fs1 : FS := match written with
    | some c => fsSet fs tmpFile c
    | none => fs
  if exitOk = false then
    { error := some "ошибка выполнения ffmpeg", fs := cleanupTmp fs1 tmpFile }
  else if (fs1 tmpFile).isNone then
    { error := some "временный файл не был создан", fs := cleanupTmp fs1 tmpFile }
  else if renameOk = false then
    { error := some "ошибка замены файла", fs := cleanupTmp fs1 tmpFile }
  else
    { error := none,
      fs := cleanupTmp
        (fsSet (fsRemove fs1 tmpFile) inputFile ((fs1 tmpFile).getD ""))
        tmpFile }

/-! ## Basic facts about the path helpers -/

theorem data_append (a b : String) : (a ++ b).data = a.data ++ b.data := by
  cases a; cases b; rfl

/-- If the reversed-scan finds an extension, the original characters split
as some prefix followed by the extension. -/
theorem extRevAux_split (l : List Char) :
    ∀ acc e, extRevAux l acc = some e →
      ∃ q, l.reverse ++ acc = q ++ e := by
  induction l with
  | nil => intro acc e h; simp [extRevAux] at h
  | cons c rest ih =>
    intro acc e h
    simp only [extRevAux] at h
    by_cases hc : c = '/'
    · simp [hc] at h
    · by_cases hd : c = '.'
      · simp [hc, hd] at h
        refine ⟨rest.reverse, ?_⟩
        simp [hd, ← h, List.append_assoc]
      · simp [hc, hd] at h
        obtain ⟨q, hq⟩ := ih (c :: acc) e h
        refine ⟨q, ?_⟩
        simpa [List.append_assoc] using hq

/-- Trimming a path's own extension and re-appending it restores the path. -/
theorem trim_ext_append (p : String) :
    goTrimSuffix p (goExt p) ++ goExt p = p := by
  unfold goExt
  cases h : extRevAux p.data.reverse [] with
  | none =>
    apply String.ext
    simp [goTrimSuffix, data_append, List.isSuffixOf]
  | some e =>
    obtain ⟨q, hq⟩ := extRevAux_split _ _ _ h
    simp only [List.append_nil] at hq
    have hp : p.data = q ++ e := by
      have := congrArg List.reverse hq
      simpa using hq
    apply String.ext
    have hsuf : e.isSuffixOf p.data = true := by
      rw [List.isSuffixOf_iff_suffix]
      exact ⟨q, hp.symm⟩
    simp only [goTrimSuffix]
    simp [hsuf, hp, data_append, List.take_left']

/-- The derived temporary path is four characters longer than the input. -/
theorem tmpPath_length (p : String) :
    (tmpPath p).length = p.length + 4 := by
  have h := congrArg String.length (trim_ext_append p)
  rw [String.length_append] at h
  simp only [tmpPath, String.length_append]
  have h4 : (".tmp" : String).length = 4 := rfl
  omega

/-- The temporary path never coincides with the input path. -/
theorem tmpPath_ne (p : String) : tmpPath p ≠ p := by
  intro h
  have := congrArg String.length h
  rw [tmpPath_length] at this
  omega

/-! ## Filesystem lemmas -/

theorem fsSet_self (fs : FS) (t c : String) : fsSet fs t c t = some c := by
  simp [fsSet]

theorem fsSet_other (fs : FS) (t c q : String) (h : q ≠ t) :
    fsSet fs t c q = fs q := by
  simp [fsSet, h]

theorem fsRemove_other (fs : FS) (t q : String) (h : q ≠ t) :
    fsRemove fs t q = fs q := by
  simp [fsRemove, h]

/-- After the deferred cleanup, nothing is at the temporary path. -/
theorem cleanup_self (fs : FS) (t : String) : cleanupTmp fs t t = none := by
  by_cases h : (fs t).isSome
  · simp [cleanupTmp, h, fsRemove]
  · simp only [cleanupTmp, h, if_false, Bool.false_eq_true]
    exact Option.not_isSome_iff_eq_none.mp (by simpa using h)

/-- The deferred cleanup touches only the temporary path. -/
theorem cleanup_other (fs : FS) (t q : String) (h : q ≠ t) :
    cleanupTmp fs t q = fs q := by
  unfold cleanupTmp
  split
  · exact fsRemove_other fs t q h
  · rfl

/-- C1: when the ffmpeg invocation exits non-zero, `stripMetadata` returns
the wrapped ffmpeg error, the original file is unchanged in content and
location, and no file remains at the derived temporary path — whatever
ffmpeg may have left there before failing. -/
theorem stripMetadata_ffmpeg_failure :
    ∀ (fs : FS) (p : String) (written : Option String) (renameOk : Bool),
      (stripMetadata fs p false written renameOk).error =
        some "ошибка выполнения ffmpeg" ∧
      (stripMetadata fs p false written renameOk).fs p = fs p ∧
      (stripMetadata fs p false written renameOk).fs (tmpPath p) = none := by
  intro fs p written renameOk
  have hne : p ≠ tmpPath p := (tmpPath_ne p).symm
  cases written with
  | none =>
    refine ⟨rfl, ?_, ?_⟩
    · exact cleanup_other fs (tmpPath p) p hne
    · exact cleanup_self fs (tmpPath p)
  | some c =>
    refine ⟨rfl, ?_, ?_⟩
    · show cleanupTmp (fsSet fs (tmpPath p) c) (tmpPath p) p = fs p
      rw [cleanup_other _ _ _ hne, fsSet_other _ _ _ _ hne]
    · exact cleanup_self _ _

/-- C4: at the end of every `stripMetadata` call — ffmpeg failure, missing
temp file, rename failure or success — no file exists at the derived
temporary path; on the success path (ffmpeg exits zero having written the
temp file and the rename succeeds) the temp content has been renamed over
the original with no error; and on the rename-failure path the wrapped
rename error is returned, the original is untouched, and the deferred
cleanup has deleted the temp file. -/
theorem stripMetadata_no_tmp_left :
    (∀ (fs : FS) (p : String) (exitOk : Bool) (written : Option String)
        (renameOk : Bool),
        (stripMetadata fs p exitOk written renameOk).fs (tmpPath p) = none) ∧
    (∀ (fs : FS) (p c : String),
        (stripMetadata fs p true (some c) true).error = none ∧
        (stripMetadata fs p true (some c) true).fs p = some c) ∧
    (∀ (fs : FS) (p c : String),
        (stripMetadata fs p true (some c) false).error =
          some "ошибка замены файла" ∧
        (stripMetadata fs p true (some c) false).fs p = fs p) := by
  refine ⟨?_, ?_, ?_⟩
  · intro fs p exitOk written renameOk
    cases exitOk with
    | false =>
      cases written with
      | none => exact cleanup_self _ _
      | some c => exact cleanup_self _ _
    | true =>
      cases written with
      | none =>
        simp only [stripMetadata]
        split
        · exact cleanup_self _ _
        · split
          · exact cleanup_self _ _
          · split
            · exact cleanup_self _ _
            · exact cleanup_self _ _
      | some c =>
        simp only [stripMetadata]
        split
        · exact cleanup_self _ _
        · split
          · exact cleanup_self _ _
          · split
            · exact cleanup_self _ _
            · exact cleanup_self _ _
  · intro fs p c
    have hne : p ≠ tmpPath p := (tmpPath_ne p).symm
    have h1 : fsSet fs (tmpPath p) c (tmpPath p) = some c := fsSet_self fs _ c
    constructor
    · simp only [stripMetadata]
      rw [if_neg (by simp)]
      rw [h1]
      simp
    · simp only [stripMetadata]
      rw [if_neg (by simp)]
      rw [h1]
      simp only [Option.isNone_some, Bool.false_eq_true, if_false,
        if_neg (by simp : ¬(true = false))]
      rw [cleanup_other _ _ _ hne, fsSet_self]
      simp
  · intro fs p c
    have hne : p ≠ tmpPath p := (tmpPath_ne p).symm
    have h1 : fsSet fs (tmpPath p) c (tmpPath p) = some c := fsSet_self fs _ c
    constructor
    · simp only [stripMetadata]
      rw [if_neg (by simp)]
      rw [h1]
      simp
    · simp only [stripMetadata]
      rw [if_neg (by simp)]
      rw [h1]
      simp only [Option.isNone_some, Bool.false_eq_true, if_false, if_true]
      rw [cleanup_other _ _ _ hne, fsSet_other _ _ _ _ hne]

/-! ## File discovery -/

/-- Membership in the walk fold of `findVideoFiles`: a path is collected
iff it was in the accumulator already, or it was visited as a
non-directory and passes the extension test. -/
theorem mem_walkFold (l : List (String × Bool)) :
    ∀ (acc : List String) (p : String),
      p ∈ l.foldl
        (fun acc v =>
          if v.2 then acc
          else if selectsVideo v.1 then acc ++ [v.1] else acc) acc ↔
      p ∈ acc ∨ ((p, false) ∈ l ∧ selectsVideo p = true) := by
  induction l with
  | nil => intro acc p; simp
  | cons v rest ih =>
    intro acc p
    obtain ⟨v1, v2⟩ := v
    simp only [List.foldl_cons]
    rw [ih]
    cases v2 with
    | true => simp [List.mem_cons, Prod.mk.injEq]
    | false =>
      by_cases hp : p = v1
      · subst hp
        by_cases hs : selectsVideo p = true
        · simp [hs, List.mem_cons, Prod.mk.injEq]
        · simp [hs, List.mem_cons, Prod.mk.injEq]
      · by_cases hs : selectsVideo v1 = true
        · simp [hs, hp, List.mem_cons, Prod.mk.injEq]
        · simp [hs, hp, List.mem_cons, Prod.mk.injEq]

/-- C5: for every directory tree, `findVideoFiles` returns exactly the
paths visited as regular files (never a directory) whose lowercased
extension is in the fixed allow-list, the match being case-insensitive;
and for a directory holding `clip.MP4` and `notes.txt` it returns only
`clip.MP4`. -/
theorem findVideoFiles_exact :
    (∀ (dir : String) (tree : List Entry) (p : String),
        p ∈ findVideoFiles dir tree ↔
          (p, false) ∈ walkVisit dir tree ∧ selectsVideo p = true) ∧
    findVideoFiles "/work" [Entry.file "clip.MP4", Entry.file "notes.txt"] =
      ["/work/clip.MP4"] := by
  constructor
  · intro dir tree p
    unfold findVideoFiles
    rw [mem_walkFold]
    simp
  · simp only [findVideoFiles, walkVisit, walkList, List.foldl_cons,
      List.foldl_nil]
    decide


/-! ## Classifier membership lemmas and the classification claims -/

theorem mem_checkTag (tags : List (String × String)) (k f : String) :
    f ∈ checkTag tags k ↔
      ∃ v, lookupTag tags k = some v ∧ v ≠ "" ∧ f = k ++ ": " ++ v := by
  unfold checkTag
  cases h : lookupTag tags k with
  | none => simp
  | some v =>
    by_cases hv : v = ""
    · simp [hv]
    · simp [hv]

theorem mem_checkStreamTag (i : Nat) (tags : List (String × String))
    (k f : String) :
    f ∈ checkStreamTag i tags k ↔
      ∃ v, lookupTag tags k = some v ∧ v ≠ "" ∧ f = streamFinding i k v := by
  unfold checkStreamTag
  cases h : lookupTag tags k with
  | none => simp
  | some v =>
    by_cases hv : v = ""
    · simp [hv]
    · simp [hv]

theorem mem_checkStreamEncoder (i : Nat) (tags : List (String × String))
    (f : String) :
    f ∈ checkStreamEncoder i tags ↔
      ∃ v, lookupTag tags "encoder" = some v ∧ v ≠ "" ∧
        goHasPre v "Lav" = false ∧ f = streamFinding i "encoder" v := by
  unfold checkStreamEncoder
  cases h : lookupTag tags "encoder" with
  | none => simp
  | some v =>
    by_cases hv : v ≠ "" ∧ goHasPre v "Lav" = false
    · simp [hv, hv.1, hv.2]
    · simp only [hv, if_false]
      simp only [not_and_or] at hv
      rcases hv with hv | hv
      · simp at hv
        simp [hv]
      · simp at hv
        simp [hv]

theorem mem_displayChecks3 (i : Nat) (tags : List (String × String))
    (f : String) :
    ((f ∈ checkStreamTag i tags "creation_time" ∨
      f ∈ checkStreamTag i tags "encoder") ∨
      f ∈ checkStreamTag i tags "timecode") ↔
      ∃ k ∈ (["creation_time", "encoder", "timecode"] : List String),
        ∃ v, lookupTag tags k = some v ∧ v ≠ "" ∧ f = streamFinding i k v := by
  simp only [mem_checkStreamTag, List.mem_cons,
    List.mem_singleton, List.not_mem_nil, or_false]
  constructor
  · rintro ((h | h) | h)
    · exact ⟨"creation_time", Or.inl rfl, h⟩
    · exact ⟨"encoder", Or.inr (Or.inl rfl), h⟩
    · exact ⟨"timecode", Or.inr (Or.inr rfl), h⟩
  · rintro ⟨k, (rfl | rfl | rfl), h⟩
    · exact Or.inl (Or.inl h)
    · exact Or.inl (Or.inr h)
    · exact Or.inr h

theorem mem_displayStreamLoop (ss : List (List (String × String))) :
    ∀ (i : Nat) (f : String),
      f ∈ displayStreamLoop ss i ↔
        ∃ j tags, ss[j]? = some tags ∧
          ∃ k ∈ (["creation_time", "encoder", "timecode"] : List String),
            ∃ v, lookupTag tags k = some v ∧ v ≠ "" ∧
              f = streamFinding (i + j) k v := by
  induction ss with
  | nil => intro i f; simp [displayStreamLoop]
  | cons tags rest ih =>
    intro i f
    simp only [displayStreamLoop, List.mem_append]
    rw [mem_displayChecks3, ih]
    constructor
    · rintro (⟨k, hk, v, hv⟩ | ⟨j, tags', hj, k, hk, v, hv⟩)
      · exact ⟨0, tags, by simp, k, hk, v, hv.1, hv.2.1, by
          simpa [Nat.add_zero] using hv.2.2⟩
      · refine ⟨j + 1, tags', by simpa using hj, k, hk, v, hv.1, hv.2.1, ?_⟩
        have hidx : i + 1 + j = i + (j + 1) := by omega
        rw [← hidx]
        exact hv.2.2
    · rintro ⟨j, tags', hj, k, hk, v, hv⟩
      cases j with
      | zero =>
        simp only [List.getElem?_cons_zero, Option.some.injEq] at hj
        subst hj
        exact Or.inl ⟨k, hk, v, hv.1, hv.2.1, by
          simpa [Nat.add_zero] using hv.2.2⟩
      | succ j' =>
        right
        refine ⟨j', tags', by simpa using hj, k, hk, v, hv.1, hv.2.1, ?_⟩
        have hidx : i + 1 + j' = i + (j' + 1) := by omega
        rw [hidx]
        exact hv.2.2

theorem displayFindings_exact :
    (∀ (m : MetadataInfo) (f : String),
        f ∈ displayFindings m ↔
          (∃ k ∈ displayKeys, ∃ v, lookupTag m.formatTags k = some v ∧
              v ≠ "" ∧ f = k ++ ": " ++ v) ∨
          (∃ j tags, m.streams[j]? = some tags ∧
            ∃ k ∈ (["creation_time", "encoder", "timecode"] : List String),
              ∃ v, lookupTag tags k = some v ∧ v ≠ "" ∧
                f = streamFinding j k v)) ∧
    displayFindings
        ⟨[("creation_time", "2024-01-01"), ("encoder", "HandBrake 1.6")],
          []⟩ =
      ["creation_time: 2024-01-01", "encoder: HandBrake 1.6"] := by
  constructor
  · intro m f
    have hsplit : displayFindings m =
        displayKeys.flatMap (checkTag m.formatTags) ++
          displayStreamLoop m.streams 0 := by
      simp [displayFindings, displayKeys, List.flatMap_cons,
        List.flatMap_nil, List.append_assoc]
    rw [hsplit, List.mem_append, List.mem_flatMap, mem_displayStreamLoop]
    simp only [Nat.zero_add, mem_checkTag]
  · decide

theorem mem_verifyFormatLoop (l : List (String × String)) (f : String) :
    f ∈ verifyFormatLoop l ↔
      ∃ kv ∈ l, ignoredTags.contains kv.1 = false ∧ kv.2 ≠ "" ∧
        ¬(kv.1 = "encoder" ∧ goHasPre kv.2 "Lavf" = true) ∧
        f = kv.1 ++ ": " ++ kv.2 := by
  induction l with
  | nil => simp [verifyFormatLoop]
  | cons kv rest ih =>
    obtain ⟨k, v⟩ := kv
    simp only [verifyFormatLoop, List.mem_append, List.mem_cons]
    rw [ih]
    by_cases h1 : ignoredTags.contains k = false ∧ v ≠ ""
    · by_cases h2 : k = "encoder" ∧ goHasPre v "Lavf" = true
      · rw [if_pos h1, if_pos h2]
        simp only [List.not_mem_nil, false_or]
        constructor
        · rintro ⟨kv', hkv, h⟩
          exact ⟨kv', Or.inr hkv, h⟩
        · rintro ⟨kv', hkv | hkv, h⟩
          · subst hkv
            exact absurd h2 h.2.2.1
          · exact ⟨kv', hkv, h⟩
      · rw [if_pos h1, if_neg h2]
        simp only [List.mem_singleton]
        constructor
        · rintro (rfl | ⟨kv', hkv, h⟩)
          · exact ⟨(k, v), Or.inl rfl, h1.1, h1.2, h2, rfl⟩
          · exact ⟨kv', Or.inr hkv, h⟩
        · rintro ⟨kv', hkv | hkv, h⟩
          · subst hkv
            exact Or.inl h.2.2.2
          · exact Or.inr ⟨kv', hkv, h⟩
    · rw [if_neg h1]
      simp only [List.not_mem_nil, false_or]
      constructor
      · rintro ⟨kv', hkv, h⟩
        exact ⟨kv', Or.inr hkv, h⟩
      · rintro ⟨kv', hkv | hkv, h⟩
        · subst hkv
          exact absurd ⟨h.1, h.2.1⟩ h1
        · exact ⟨kv', hkv, h⟩

theorem mem_verifyChecks3 (i : Nat) (tags : List (String × String))
    (f : String) :
    ((f ∈ checkStreamTag i tags "creation_time" ∨
      f ∈ checkStreamEncoder i tags) ∨
      f ∈ checkStreamTag i tags "timecode") ↔
      ((∃ v, lookupTag tags "creation_time" = some v ∧ v ≠ "" ∧
          f = streamFinding i "creation_time" v) ∨
       (∃ v, lookupTag tags "encoder" = some v ∧ v ≠ "" ∧
          goHasPre v "Lav" = false ∧ f = streamFinding i "encoder" v) ∨
       (∃ v, lookupTag tags "timecode" = some v ∧ v ≠ "" ∧
          f = streamFinding i "timecode" v)) := by
  rw [mem_checkStreamTag, mem_checkStreamTag, mem_checkStreamEncoder]
  exact or_assoc

theorem mem_verifyStreamLoop (ss : List (List (String × String))) :
    ∀ (i : Nat) (f : String),
      f ∈ verifyStreamLoop ss i ↔
        ∃ j tags, ss[j]? = some tags ∧
          ((∃ v, lookupTag tags "creation_time" = some v ∧ v ≠ "" ∧
              f = streamFinding (i + j) "creation_time" v) ∨
           (∃ v, lookupTag tags "encoder" = some v ∧ v ≠ "" ∧
              goHasPre v "Lav" = false ∧
              f = streamFinding (i + j) "encoder" v) ∨
           (∃ v, lookupTag tags "timecode" = some v ∧ v ≠ "" ∧
              f = streamFinding (i + j) "timecode" v)) := by
  induction ss with
  | nil => intro i f; simp [verifyStreamLoop]
  | cons tags rest ih =>
    intro i f
    simp only [verifyStreamLoop, List.mem_append]
    rw [mem_verifyChecks3, ih]
    constructor
    · rintro (h | ⟨j, tags', hj, h⟩)
      · exact ⟨0, tags, by simp, by simpa [Nat.add_zero] using h⟩
      · refine ⟨j + 1, tags', by simpa using hj, ?_⟩
        have hidx : i + 1 + j = i + (j + 1) := by omega
        rw [← hidx]
        exact h
    · rintro ⟨j, tags', hj, h⟩
      cases j with
      | zero =>
        simp only [List.getElem?_cons_zero, Option.some.injEq] at hj
        subst hj
        exact Or.inl (by simpa [Nat.add_zero] using h)
      | succ j' =>
        right
        refine ⟨j', tags', by simpa using hj, ?_⟩
        have hidx : i + 1 + j' = i + (j' + 1) := by omega
        rw [hidx]
        exact h

theorem verifyFindings_exact :
    (∀ (m : MetadataInfo) (f : String),
        f ∈ verifyFindings m ↔
          (∃ kv ∈ m.formatTags, ignoredTags.contains kv.1 = false ∧
              kv.2 ≠ "" ∧
              ¬(kv.1 = "encoder" ∧ goHasPre kv.2 "Lavf" = true) ∧
              f = kv.1 ++ ": " ++ kv.2) ∨
          (∃ j tags, m.streams[j]? = some tags ∧
            ((∃ v, lookupTag tags "creation_time" = some v ∧ v ≠ "" ∧
                f = streamFinding j "creation_time" v) ∨
             (∃ v, lookupTag tags "encoder" = some v ∧ v ≠ "" ∧
                goHasPre v "Lav" = false ∧ f = streamFinding j "encoder" v) ∨
             (∃ v, lookupTag tags "timecode" = some v ∧ v ≠ "" ∧
                f = streamFinding j "timecode" v)))) ∧
    verifyFindings ⟨[("major_brand", "isom"), ("minor_version", "512"),
        ("compatible_brands", "isomiso2avc1mp41"),
        ("encoder", "Lavf60.3.100")], []⟩ = [] ∧
    verifyFindings ⟨[("title", "Vacation")], []⟩ = ["title: Vacation"] := by
  refine ⟨?_, by decide, by decide⟩
  intro m f
  simp only [verifyFindings, List.mem_append]
  rw [mem_verifyFormatLoop, mem_verifyStreamLoop]
  simp only [Nat.zero_add]


/-! ## Ignore-set and ordering claims -/

theorem lookupTag_none (tags : List (String × String)) (k : String)
    (h : ∀ kv ∈ tags, kv.1 ≠ k) : lookupTag tags k = none := by
  induction tags with
  | nil => rfl
  | cons kv rest ih =>
    unfold lookupTag
    rw [if_neg (h kv (by simp))]
    exact ih fun kv' h' => h kv' (by simp [h'])

theorem checkTag_nil (tags : List (String × String)) (k : String)
    (h : ∀ kv ∈ tags, kv.1 ≠ k) : checkTag tags k = [] := by
  unfold checkTag
  rw [lookupTag_none tags k h]

theorem checkStreamTag_nil (i : Nat) (tags : List (String × String))
    (k : String) (h : ∀ kv ∈ tags, kv.1 ≠ k) : checkStreamTag i tags k = [] := by
  unfold checkStreamTag
  rw [lookupTag_none tags k h]

theorem displayStreamLoop_nil (ss : List (List (String × String)))
    (h : ∀ tags ∈ ss, ∀ kv ∈ tags,
      kv.1 ∉ (["creation_time", "encoder", "timecode"] : List String)) :
    ∀ i, displayStreamLoop ss i = [] := by
  induction ss with
  | nil => intro i; rfl
  | cons tags rest ih =>
    intro i
    have h0 := h tags (by simp)
    have hkey : ∀ k ∈ (["creation_time", "encoder", "timecode"] : List String),
        checkStreamTag i tags k = [] := by
      intro k hkmem
      refine checkStreamTag_nil i tags k fun kv hkv heq => ?_
      exact h0 kv hkv (heq ▸ hkmem)
    simp only [displayStreamLoop, hkey "creation_time" (by simp),
      hkey "encoder" (by simp), hkey "timecode" (by simp),
      List.append_nil, List.nil_append]
    exact ih (fun tags' h' => h tags' (by simp [h'])) (i + 1)

/-- C6 counterexample: the snapshot holding only the non-empty container
tag `location: secret` is classified pre-strip with an empty finding list,
so the pre-strip classification does not report every non-empty tag. -/
theorem display_ignores_unknown_key :
    lookupTag [("location", "secret")] "location" = some "secret" ∧
    ("secret" : String) ≠ "" ∧
    displayFindings ⟨[("location", "secret")], []⟩ = [] :=
  ⟨by decide, by decide, by decide⟩

/-- C6 amended: the pre-strip classification's ignore behaviour is a
whitelist, not an empty ignore set: a snapshot whose container keys are
all outside the eight known keys and whose stream keys are all outside
creation_time/encoder/timecode produces no findings at all. -/
theorem display_only_known_keys :
    ∀ (m : MetadataInfo),
      (∀ kv ∈ m.formatTags, kv.1 ∉ displayKeys) →
      (∀ tags ∈ m.streams, ∀ kv ∈ tags,
        kv.1 ∉ (["creation_time", "encoder", "timecode"] : List String)) →
      displayFindings m = [] := by
  intro m hfmt hstr
  have hk : ∀ k ∈ displayKeys, checkTag m.formatTags k = [] := by
    intro k hkmem
    refine checkTag_nil m.formatTags k fun kv hkv heq => ?_
    exact hfmt kv hkv (heq ▸ hkmem)
  unfold displayFindings
  rw [hk "creation_time" (by decide), hk "encoder" (by decide),
    hk "comment" (by decide), hk "title" (by decide),
    hk "artist" (by decide), hk "album" (by decide),
    hk "date" (by decide), hk "description" (by decide),
    displayStreamLoop_nil m.streams hstr 0]
  rfl

theorem display_only_known_keys_witness :
    displayFindings
      ⟨[("location", "secret")], [[("handler_name", "Core Media Video")]]⟩ =
      [] :=
  display_only_known_keys _ (by decide) (by decide)

/-- Spec-side `Option`-valued rendering of one known container key under
the pre-strip policy, used to state the ordering of `displayFindings`. -/
def checkTagOpt (tags : List (String × String)) (k : String) :
    Option String :=
  match lookupTag tags k with
  | some v => if v ≠ "" then some (k ++ ": " ++ v) else none
  | none => none

/-- Spec-side `Option`-valued rendering of one container tag under the
post-strip policy. -/
def verifyTagOpt (kv : String × String) : Option String :=
  if ignoredTags.contains kv.1 = false ∧ kv.2 ≠ "" then
    if kv.1 = "encoder" ∧ goHasPre kv.2 "Lavf" = true then none
    else some (kv.1 ++ ": " ++ kv.2)
  else none

/-- The findings one stream contributes under the pre-strip policy. -/
def displayStreamChecks (p : Nat × List (String × String)) : List String :=
  checkStreamTag p.1 p.2 "creation_time" ++
  checkStreamTag p.1 p.2 "encoder" ++
  checkStreamTag p.1 p.2 "timecode"

/-- The findings one stream contributes under the post-strip policy. -/
def verifyStreamChecks (p : Nat × List (String × String)) : List String :=
  checkStreamTag p.1 p.2 "creation_time" ++
  checkStreamEncoder p.1 p.2 ++
  checkStreamTag p.1 p.2 "timecode"

theorem checkTag_toList (tags : List (String × String)) (k : String) :
    checkTag tags k = (checkTagOpt tags k).toList := by
  unfold checkTag checkTagOpt
  cases lookupTag tags k with
  | none => rfl
  | some v =>
    by_cases hv : v = ""
    · simp [hv]
    · simp [hv]

theorem filterMap_cons_toList {α β : Type} (g : α → Option β) (x : α)
    (l : List α) :
    (x :: l).filterMap g = (g x).toList ++ l.filterMap g := by
  cases h : g x <;> simp [List.filterMap_cons, h]

theorem verifyFormatLoop_filterMap (l : List (String × String)) :
    verifyFormatLoop l = l.filterMap verifyTagOpt := by
  induction l with
  | nil => rfl
  | cons kv rest ih =>
    obtain ⟨k, v⟩ := kv
    rw [filterMap_cons_toList]
    show (if ignoredTags.contains k = false ∧ v ≠ "" then
        if k = "encoder" ∧ goHasPre v "Lavf" = true then []
        else [k ++ ": " ++ v]
       else []) ++ verifyFormatLoop rest =
      (verifyTagOpt (k, v)).toList ++ rest.filterMap verifyTagOpt
    rw [ih]
    congr 1
    unfold verifyTagOpt
    by_cases h1 : ignoredTags.contains k = false ∧ v ≠ ""
    · by_cases h2 : k = "encoder" ∧ goHasPre v "Lavf" = true
      · rw [if_pos h1, if_pos h2, if_pos h1, if_pos h2]
        rfl
      · rw [if_pos h1, if_neg h2, if_pos h1, if_neg h2]
        rfl
    · rw [if_neg h1, if_neg h1]
      rfl

theorem displayStreamLoop_enumFrom (ss : List (List (String × String))) :
    ∀ i, displayStreamLoop ss i =
      (List.enumFrom i ss).flatMap displayStreamChecks := by
  induction ss with
  | nil => intro i; rfl
  | cons tags rest ih =>
    intro i
    simp only [displayStreamLoop, List.enumFrom, List.flatMap_cons, ih]
    rfl

theorem verifyStreamLoop_enumFrom (ss : List (List (String × String))) :
    ∀ i, verifyStreamLoop ss i =
      (List.enumFrom i ss).flatMap verifyStreamChecks := by
  induction ss with
  | nil => intro i; rfl
  | cons tags rest ih =>
    intro i
    simp only [verifyStreamLoop, List.enumFrom, List.flatMap_cons, ih]
    rfl

/-- C7 counterexample: with the container tag map iterated in the order
`title`, `creation_time` — an order Go's randomized map iteration can
produce — the post-strip findings are not in the fixed priority order,
which would put `creation_time` first. -/
theorem verify_not_priority_ordered :
    verifyFindings ⟨[("title", "T"), ("creation_time", "C")], []⟩ =
      ["title: T", "creation_time: C"] ∧
    verifyFindings ⟨[("title", "T"), ("creation_time", "C")], []⟩ ≠
      ["creation_time: C", "title: T"] :=
  ⟨by decide, by decide⟩

/-- C7 amended: pre-strip findings are ordered by the fixed priority key
list then stream order; post-strip findings are ordered by the container
map's iteration order (not the priority list) then stream order. -/
theorem findings_order :
    ∀ (m : MetadataInfo),
      displayFindings m =
        displayKeys.filterMap (checkTagOpt m.formatTags) ++
          (List.enumFrom 0 m.streams).flatMap displayStreamChecks ∧
      verifyFindings m =
        m.formatTags.filterMap verifyTagOpt ++
          (List.enumFrom 0 m.streams).flatMap verifyStreamChecks := by
  intro m
  constructor
  · rw [← displayStreamLoop_enumFrom]
    unfold displayFindings
    simp only [displayKeys, filterMap_cons_toList, List.filterMap_nil,
      ← checkTag_toList, List.append_nil, List.append_assoc]
  · rw [← verifyStreamLoop_enumFrom, ← verifyFormatLoop_filterMap]
    rfl


/-! ## Dependency checker -/

/-- Outcome of `brew install ffmpeg`: success, the install context's
deadline exceeded, or failure with the underlying error text. -/
inductive InstallOutcome : Type
  | ok : InstallOutcome
  | timedOut : InstallOutcome
  | failed (err : String) : InstallOutcome

/-- Oracle for the external probes the full `checkFFmpeg` performs. -/
structure FFmpegEnv where
  ffmpegOk : Bool
  brewOk : Bool
  installResult : InstallOutcome
  ffmpegOkAfter : Bool

/-- External invocations `checkFFmpeg` can make, in order. -/
inductive FFAction : Type
  | probeFFmpeg
  | probeBrew
  | runInstall
  | reprobeFFmpeg
deriving DecidableEq

/-- The bound on the `brew install` context, from
`context.WithTimeout(ctx, 20*time.Minute)`. -/
def installTimeoutMinutes : Nat := 20

def msgNoBrew : String :=
  "ffmpeg не найден и Homebrew недоступен.\nУстановите Homebrew: /bin/bash -c \"$(curl -fsSL https://raw.githubusercontent.com/Homebrew/install/HEAD/install.sh)\"\nЗатем установите ffmpeg: brew install ffmpeg"

def msgTimeout : String :=
  "установка ffmpeg превысила таймаут (20 минут). Попробуйте установить вручную: brew install ffmpeg"

def msgInstallFail (err : String) : String :=
  "ошибка установки ffmpeg через brew: " ++ err ++
    "\nПопробуйте установить вручную: brew install ffmpeg"

def msgPath : String :=
  "ffmpeg установлен, но недоступен в PATH. Перезапустите терминал или выполните: export PATH=\"/opt/homebrew/bin:$PATH\""

/-- The full program variant's `checkFFmpeg`: probe ffmpeg; on failure
probe Homebrew; if available run the bounded install, distinguishing the
deadline-exceeded error; then re-probe ffmpeg.  Returns the invocations
performed and the returned error, if any. -/
def checkFFmpeg (env : FFmpegEnv) : List FFAction × Option String :=
  if env.ffmpegOk then ([FFAction.probeFFmpeg], none)
  else if env.brewOk = false then
    ([FFAction.probeFFmpeg, FFAction.probeBrew], some msgNoBrew)
  else
    match env.installResult with
    | InstallOutcome.timedOut =>
      ([FFAction.probeFFmpeg, FFAction.probeBrew, FFAction.runInstall],
        some msgTimeout)
    | InstallOutcome.failed err =>
      ([FFAction.probeFFmpeg, FFAction.probeBrew, FFAction.runInstall],
        some (msgInstallFail err))
    | InstallOutcome.ok =>
      if env.ffmpegOkAfter then
        ([FFAction.probeFFmpeg, FFAction.probeBrew, FFAction.runInstall,
          FFAction.reprobeFFmpeg], none)
      else
        ([FFAction.probeFFmpeg, FFAction.probeBrew, FFAction.runInstall,
          FFAction.reprobeFFmpeg], some msgPath)

def msgSimple : String :=
  "ffmpeg не найден в PATH. Установите ffmpeg: brew install ffmpeg"

/-- The simple program variant's `checkFFmpeg`: one probe, and on failure
a manual-install error with no install attempt. -/
def checkFFmpegSimple (ffmpegOk : Bool) : List FFAction × Option String :=
  if ffmpegOk then ([FFAction.probeFFmpeg], none)
  else ([FFAction.probeFFmpeg], some msgSimple)

/-- The `log.Fatalf` gate in the simple variant's `main`: the run
proceeds past the dependency check only when no error was returned. -/
def mainProceedsSimple (ffmpegOk : Bool) : Bool :=
  ((checkFFmpegSimple ffmpegOk).2).isNone

/-- C8: the full dependency checker installs only when the first probe
fails; a missing package manager is a terminal error carrying the exact
manual commands; the bounded install yields a distinct timeout error, or
the wrapped error plus hint; after an install that leaves ffmpeg
unavailable, a PATH-hint error; the install bound is 20 minutes. -/
theorem checkFFmpeg_policy :
    (∀ (b : Bool) (r : InstallOutcome) (a : Bool),
        checkFFmpeg ⟨true, b, r, a⟩ = ([FFAction.probeFFmpeg], none) ∧
        FFAction.runInstall ∉ (checkFFmpeg ⟨true, b, r, a⟩).1) ∧
    (∀ (r : InstallOutcome) (a : Bool),
        checkFFmpeg ⟨false, false, r, a⟩ =
          ([FFAction.probeFFmpeg, FFAction.probeBrew], some msgNoBrew)) ∧
    (∀ (a : Bool),
        checkFFmpeg ⟨false, true, InstallOutcome.timedOut, a⟩ =
          ([FFAction.probeFFmpeg, FFAction.probeBrew, FFAction.runInstall],
            some msgTimeout)) ∧
    (∀ (err : String) (a : Bool),
        checkFFmpeg ⟨false, true, InstallOutcome.failed err, a⟩ =
          ([FFAction.probeFFmpeg, FFAction.probeBrew, FFAction.runInstall],
            some (msgInstallFail err))) ∧
    checkFFmpeg ⟨false, true, InstallOutcome.ok, false⟩ =
      ([FFAction.probeFFmpeg, FFAction.probeBrew, FFAction.runInstall,
        FFAction.reprobeFFmpeg], some msgPath) ∧
    checkFFmpeg ⟨false, true, InstallOutcome.ok, true⟩ =
      ([FFAction.probeFFmpeg, FFAction.probeBrew, FFAction.runInstall,
        FFAction.reprobeFFmpeg], none) ∧
    installTimeoutMinutes = 20 ∧
    ("brew install ffmpeg".data.isSuffixOf msgNoBrew.data = true ∧
      msgTimeout ≠ msgInstallFail "exit status 1") := by
  refine ⟨?_, ?_, ?_, ?_, by decide, by decide, rfl, by decide, by decide⟩
  · intro b r a
    refine ⟨rfl, ?_⟩
    have h : (checkFFmpeg ⟨true, b, r, a⟩).1 = [FFAction.probeFFmpeg] := rfl
    rw [h]
    decide
  · intro r a
    rfl
  · intro a
    rfl
  · intro err a
    rfl

/-- C9: the simple variant never attempts installation: it performs only
the one ffmpeg probe, returns the manual-install error when the probe
fails, and the run does not proceed past the failed check. -/
theorem checkFFmpegSimple_policy :
    (∀ b : Bool, (checkFFmpegSimple b).1 = [FFAction.probeFFmpeg]) ∧
    checkFFmpegSimple false = ([FFAction.probeFFmpeg], some msgSimple) ∧
    ("brew install ffmpeg".data.isSuffixOf msgSimple.data = true) ∧
    mainProceedsSimple false = false := by
  refine ⟨?_, rfl, by decide, rfl⟩
  intro b
  cases b <;> rfl


/-! ## Temporary paths keep the video extension -/

/-- When the scan succeeds, the extension starts with the dot and its tail
holds neither a dot nor a path separator (it is everything after the last
dot of the last path element). -/
theorem extRevAux_shape (l : List Char) :
    ∀ (acc e : List Char), extRevAux l acc = some e →
      (∀ c ∈ acc, ¬c = '.' ∧ ¬c = '/') →
      ∃ t, e = '.' :: t ∧ ∀ c ∈ t, ¬c = '.' ∧ ¬c = '/' := by
  induction l with
  | nil => intro acc e h _; simp [extRevAux] at h
  | cons c rest ih =>
    intro acc e h hacc
    simp only [extRevAux] at h
    by_cases hc : c = '/'
    · simp [hc] at h
    · by_cases hd : c = '.'
      · simp [hc, hd] at h
        exact ⟨acc, h.symm, hacc⟩
      · simp [hc, hd] at h
        refine ih (c :: acc) e h ?_
        intro x hx
        rcases List.mem_cons.mp hx with hx | hx
        · subst hx
          exact ⟨hd, hc⟩
        · exact hacc x hx

/-- Scanning a reversed string whose head part is clean of dots and
separators finds exactly the dot-extension that follows. -/
theorem extRevAux_clean_scan (l : List Char) :
    ∀ (t acc : List Char), (∀ c ∈ l, ¬c = '.' ∧ ¬c = '/') →
      extRevAux (l ++ '.' :: t) acc = some ('.' :: (l.reverse ++ acc)) := by
  induction l with
  | nil => intro t acc _; simp [extRevAux]
  | cons c rest ih =>
    intro t acc hcl
    have hc := hcl c (by simp)
    simp only [List.cons_append, extRevAux, if_neg hc.2, if_neg hc.1,
      List.append_eq]
    rw [ih t (c :: acc) (fun x hx => hcl x (by simp [hx]))]
    simp

/-- Appending in front of a path whose extension is nonempty does not
change the extension; in particular the temporary path derived from a
video path keeps the video extension. -/
theorem goExt_tmpPath (p : String) (hsel : selectsVideo p = true) :
    goExt (tmpPath p) = goExt p := by
  cases h : extRevAux p.data.reverse [] with
  | none =>
    exfalso
    have hempty : goExt p = "" := by unfold goExt; rw [h]
    rw [selectsVideo, hempty] at hsel
    exact absurd hsel (by decide)
  | some e =>
    obtain ⟨t, het, hclean⟩ := extRevAux_shape _ _ _ h (by simp)
    have hgp : goExt p = String.mk e := by unfold goExt; rw [h]
    have hdata : (tmpPath p).data =
        (goTrimSuffix p (goExt p)).data ++ ".tmp".data ++ e := by
      simp [tmpPath, data_append, hgp]
    have hrev : (tmpPath p).data.reverse =
        t.reverse ++ '.' ::
          (".tmp".data.reverse ++ (goTrimSuffix p (goExt p)).data.reverse) := by
      rw [hdata, het]
      simp [List.reverse_append]
    have hlhs : goExt (tmpPath p) = String.mk ('.' :: t) := by
      unfold goExt
      rw [hrev, extRevAux_clean_scan _ _ _
        (fun c hc => hclean c (by simpa using hc))]
      simp
    rw [hlhs, hgp, het]

/-- C10: a path accepted by the video-extension test keeps passing it
after the `.tmp` marker is inserted, so a leftover temporary file from an
interrupted run is collected by `findVideoFiles` like any other video on
a later run. -/
theorem tmpPath_still_video :
    (∀ p : String, selectsVideo p = true → selectsVideo (tmpPath p) = true) ∧
    (∀ (dir : String) (tree : List Entry) (p : String),
        selectsVideo p = true →
        (tmpPath p, false) ∈ walkVisit dir tree →
        tmpPath p ∈ findVideoFiles dir tree) := by
  have hpres : ∀ p : String, selectsVideo p = true →
      selectsVideo (tmpPath p) = true := by
    intro p h
    rw [selectsVideo, goExt_tmpPath p h]
    exact h
  refine ⟨hpres, ?_⟩
  intro dir tree p hsel hvisit
  unfold findVideoFiles
  rw [mem_walkFold]
  exact Or.inr ⟨hvisit, hpres p hsel⟩

theorem tmpPath_still_video_witness :
    selectsVideo (tmpPath "/work/clip.mp4") = true ∧
    tmpPath "/work/clip.mp4" ∈
      findVideoFiles "/work" [Entry.file "clip.tmp.mp4"] := by
  constructor
  · exact tmpPath_still_video.1 "/work/clip.mp4" (by decide)
  · refine tmpPath_still_video.2 "/work" [Entry.file "clip.tmp.mp4"]
      "/work/clip.mp4" (by decide) ?_
    simp only [walkVisit, walkList]
    decide

end Metamover
